import Mathlib

/-!
Verification development for the privacy-risk engine (data_structures.py,
attacks.py).  The Python code is shallowly embedded: records are lists of
visit structures, numpy float values are modelled as rationals, numpy int
values as integers, timestamps as naturals, and every fallible operation
(field lookup on a structured array element, out-of-range indexing,
division by zero, unresolvable attribute access) is made explicit through
an `Except` result.
-/

namespace PrivacyLib

/-- Runtime errors the embedded Python code can raise. -/
inductive Err where
  | fieldLookup    -- KeyError on a structured-array field access
  | indexError     -- IndexError on out-of-range indexing
  | divByZero      -- ZeroDivisionError
  | attributeError -- AttributeError on an unresolvable attribute
  deriving DecidableEq, Repr

/-- One visit of a Trajectory: fields x, y (floats) and time (int ≥ 0).
Embeds the numpy dtype `[(x, float), (y, float), (time, int)]` of
data_structures.py line 51. -/
structure TrajVisit where
  x : ℚ
  y : ℚ
  time : ℕ
  deriving DecidableEq, Repr

/-- One visit of a FrequencyVector: dtype `[(x, float), (y, float), (freq, int)]`
(data_structures.py line 94). -/
structure FreqVisit where
  x : ℚ
  y : ℚ
  freq : ℤ
  deriving DecidableEq, Repr

/-- One visit of a ProbabilityVector: dtype `[(x, float), (y, float), (prob, float)]`
(data_structures.py line 138). -/
structure ProbVisit where
  x : ℚ
  y : ℚ
  prob : ℚ
  deriving DecidableEq, Repr

/-- An individual record (data_structures.py, class IndividualRecord): an id
together with the ordered array of visits, generic in the visit payload. -/
structure IndividualRecord (V : Type) where
  id : ℤ
  visits : List V
  deriving DecidableEq, Repr

/-- Insertion of an element at a given position, embedding `numpy.insert`
(positions beyond the end append, which numpy also does for index = size). -/
def insertAt (a : α) : ℕ → List α → List α
  | 0, l => a :: l
  | _ + 1, [] => [a]
  | n + 1, x :: xs => x :: insertAt a n xs

/-- Trajectory.add_visit (data_structures.py lines 53-75): the insertion
index is `numpy.searchsorted(visits[time], t)` with the default side `left`,
which on a list kept ascending by time is the number of visits with time
strictly below `t`; rendered as the length of the matching `takeWhile`
prefix. -/
def trajAddVisit (rec : IndividualRecord TrajVisit) (x y : ℚ) (t : ℕ) :
    IndividualRecord TrajVisit :=
  ⟨rec.id, insertAt ⟨x, y, t⟩ ((rec.visits.takeWhile (fun v => v.time < t)).length) rec.visits⟩

/-- FrequencyVector.add_visit (data_structures.py lines 96-119): the index is
`size - searchsorted(visits[freq][::-1], f, side=right)`; on a list kept
descending by freq this is the number of visits with frequency strictly
above `f`. -/
def freqAddVisit (rec : IndividualRecord FreqVisit) (x y : ℚ) (f : ℤ) :
    IndividualRecord FreqVisit :=
  ⟨rec.id, insertAt ⟨x, y, f⟩ ((rec.visits.takeWhile (fun v => f < v.freq)).length) rec.visits⟩

/-- ProbabilityVector.add_visit (data_structures.py lines 140-162), same
scheme as FrequencyVector but keyed on prob. -/
def probAddVisit (rec : IndividualRecord ProbVisit) (x y : ℚ) (p : ℚ) :
    IndividualRecord ProbVisit :=
  ⟨rec.id, insertAt ⟨x, y, p⟩ ((rec.visits.takeWhile (fun v => p < v.prob)).length) rec.visits⟩

/-- itertools.combinations: all length-r selections of the list, each
preserving the relative order of the input, emitted in lexicographic order
of chosen positions. -/
def combinations : ℕ → List α → List (List α)
  | 0, _ => [[]]
  | _ + 1, [] => []
  | r + 1, x :: xs => (combinations r xs).map (x :: ·) ++ combinations (r + 1) xs

/-- The instance enumeration of Attack.risk (attacks.py lines 90-94):
`combinations(visits, len(visits))` when k exceeds the visit count, else
`combinations(visits, k)`. -/
def instancesEnum (k : ℕ) (visits : List α) : List (List α) :=
  if visits.length < k then combinations visits.length visits
  else combinations k visits

/-! ### Matchers on properly typed instances

Each `has_matching` scans the record's visits once with a pointer `count`
into the instance; the Python loop index `i` satisfies
`number_of_visits - i = (current suffix).length`, so the feasibility test
`(number_of_visits - i) < (target - count)` becomes
`rs.length + 1 < inst.length - count` when the suffix is `r :: rs`.
A normally exhausted loop returns the initial `has_match = True`. -/

/-- Inner loop of LocationAttack.has_matching (attacks.py lines 148-155):
scan the record visits paired with their `control` flags and consume the
first still-unused visit at the instance element's location. -/
def locInner (e : TrajVisit) : List (TrajVisit × Bool) → Option (List (TrajVisit × Bool))
  | [] => none
  | (v, c) :: rest =>
    if e.x = v.x ∧ e.y = v.y ∧ c = true then some ((v, false) :: rest)
    else (locInner e rest).map ((v, c) :: ·)

/-- Outer loop of LocationAttack.has_matching (attacks.py lines 141-161):
`j` is the index of the current instance element and `count` the number of
elements already paired. -/
def locLoop (target : ℕ) : List TrajVisit → ℕ → ℕ → List (TrajVisit × Bool) → Bool
  | [], _, _, _ => true
  | e :: es, j, count, control =>
    match locInner e control with
    | some control' =>
      if count + 1 = target then true
      else if count + 1 ≤ j then false
      else locLoop target es (j + 1) (count + 1) control'
    | none =>
      if count = target then true
      else if count ≤ j then false
      else locLoop target es (j + 1) count control

/-- LocationAttack.has_matching (attacks.py lines 125-161). -/
def locHasMatching (rec : IndividualRecord TrajVisit) (inst : List TrajVisit) : Bool :=
  locLoop inst.length inst 0 0 (rec.visits.map (fun v => (v, true)))

/-- Loop of LocationSequenceAttack.has_matching (attacks.py lines 186-202). -/
def locSeqLoop (inst : List TrajVisit) : List TrajVisit → ℕ → Except Err Bool
  | [], _ => .ok true
  | r :: rs, count =>
    match inst[count]? with
    | none => .error .indexError
    | some e =>
      let count' := if e.x = r.x ∧ e.y = r.y then count + 1 else count
      if count' = inst.length then .ok true
      else if rs.length + 1 < inst.length - count' then .ok false
      else locSeqLoop inst rs count'

/-- LocationSequenceAttack.has_matching (attacks.py lines 170-202). -/
def locSeqHasMatching (rec : IndividualRecord TrajVisit) (inst : List TrajVisit) :
    Except Err Bool :=
  locSeqLoop inst rec.visits 0

/-- Precision levels of the VisitAttack (attacks.py line 211). -/
inductive Precision where
  | year | month | day | hour | minute | second
  deriving DecidableEq, Repr

/-- Decimal prefix length used by each precision level
(attacks.py lines 249-262). -/
def Precision.prefixLen : Precision → ℕ
  | .year => 4
  | .month => 6
  | .day => 8
  | .hour => 10
  | .minute => 12
  | .second => 14

/-- Digit-count worker structurally recursive on a fuel argument, so that
it reduces inside the kernel; with fuel ≥ n it counts the decimal digits
of n. -/
def decDigitsAux : ℕ → ℕ → ℕ
  | 0, _ => 1
  | fuel + 1, n => if n < 10 then 1 else decDigitsAux fuel (n / 10) + 1

/-- Number of decimal digits of `str(n)` for a natural number. -/
def decDigits (n : ℕ) : ℕ := decDigitsAux n n

/-- VisitAttack.__extract_precision (attacks.py lines 235-263):
`int(str(i)[:L])`, i.e. keep the `L` most significant decimal digits
(the value itself when it has at most `L` digits). -/
def extractPrecision (p : Precision) (t : ℕ) : ℕ :=
  if decDigits t ≤ p.prefixLen then t else t / 10 ^ (decDigits t - p.prefixLen)

/-- Loop of VisitAttack.has_matching (attacks.py lines 281-304).  The Python
`t_diff = extract(instance) - extract(record)` is negative exactly when the
instance element's truncated time is below the record visit's. -/
def visitLoop (p : Precision) (inst : List TrajVisit) : List TrajVisit → ℕ → Except Err Bool
  | [], _ => .ok true
  | r :: rs, count =>
    match inst[count]? with
    | none => .error .indexError
    | some e =>
      if e.x = r.x ∧ e.y = r.y ∧ extractPrecision p e.time = extractPrecision p r.time then
        if count + 1 = inst.length then .ok true
        else if rs.length + 1 < inst.length - (count + 1) then .ok false
        else visitLoop p inst rs (count + 1)
      else if extractPrecision p e.time < extractPrecision p r.time then .ok false
      else if count = inst.length then .ok true
      else if rs.length + 1 < inst.length - count then .ok false
      else visitLoop p inst rs count

/-- VisitAttack.has_matching (attacks.py lines 265-304). -/
def visitHasMatching (p : Precision) (rec : IndividualRecord TrajVisit)
    (inst : List TrajVisit) : Except Err Bool :=
  visitLoop p inst rec.visits 0

/-- Loop of FrequencyAttack.has_matching (attacks.py lines 353-376):
`f_diff = record.freq - instance.freq * tolerance`, match on equal location
with `f_diff >= 0`, immediate failure when `f_diff < 0`. -/
def freqLoop (tol : ℚ) (inst : List FreqVisit) : List FreqVisit → ℕ → Except Err Bool
  | [], _ => .ok true
  | r :: rs, count =>
    match inst[count]? with
    | none => .error .indexError
    | some e =>
      let fdiff : ℚ := (r.freq : ℚ) - (e.freq : ℚ) * tol
      if e.x = r.x ∧ e.y = r.y ∧ 0 ≤ fdiff then
        if count + 1 = inst.length then .ok true
        else if rs.length + 1 < inst.length - (count + 1) then .ok false
        else freqLoop tol inst rs (count + 1)
      else if fdiff < 0 then .ok false
      else if count = inst.length then .ok true
      else if rs.length + 1 < inst.length - count then .ok false
      else freqLoop tol inst rs count

/-- FrequencyAttack.has_matching (attacks.py lines 337-376). -/
def freqHasMatching (tol : ℚ) (rec : IndividualRecord FreqVisit)
    (inst : List FreqVisit) : Except Err Bool :=
  freqLoop tol inst rec.visits 0

/-- Loop of ProbabilityAttack.has_matching (attacks.py lines 424-448):
`p_diff_min = record.prob - instance.prob - tolerance`,
`p_diff_max = record.prob - instance.prob + tolerance`, match on equal
location with `p_diff_min >= 0 and p_diff_max <= 0` (the inequalities as
written in the source), immediate failure when `p_diff_min < 0`. -/
def probLoop (tol : ℚ) (inst : List ProbVisit) : List ProbVisit → ℕ → Except Err Bool
  | [], _ => .ok true
  | r :: rs, count =>
    match inst[count]? with
    | none => .error .indexError
    | some e =>
      let pmin : ℚ := r.prob - e.prob - tol
      let pmax : ℚ := r.prob - e.prob + tol
      if e.x = r.x ∧ e.y = r.y ∧ 0 ≤ pmin ∧ pmax ≤ 0 then
        if count + 1 = inst.length then .ok true
        else if rs.length + 1 < inst.length - (count + 1) then .ok false
        else probLoop tol inst rs (count + 1)
      else if pmin < 0 then .ok false
      else if count = inst.length then .ok true
      else if rs.length + 1 < inst.length - count then .ok false
      else probLoop tol inst rs count

/-- ProbabilityAttack.has_matching (attacks.py lines 408-448). -/
def probHasMatching (tol : ℚ) (rec : IndividualRecord ProbVisit)
    (inst : List ProbVisit) : Except Err Bool :=
  probLoop tol inst rec.visits 0

/-- Phase 1 of ProportionAttack.has_matching (attacks.py lines 531-548):
pure location consumption; each consumed record visit is re-inserted into a
fresh FrequencyVector via add_visit, so `matched` stays ordered by
descending frequency. -/
def propPhase1 (inst : List FreqVisit) :
    List FreqVisit → ℕ → List FreqVisit → Except Err (Bool × List FreqVisit)
  | [], _, matched => .ok (true, matched)
  | r :: rs, count, matched =>
    match inst[count]? with
    | none => .error .indexError
    | some e =>
      if e.x = r.x ∧ e.y = r.y then
        let matched' := insertAt r ((matched.takeWhile (fun v => r.freq < v.freq)).length) matched
        if count + 1 = inst.length then .ok (true, matched')
        else if rs.length + 1 < inst.length - (count + 1) then .ok (false, matched')
        else propPhase1 inst rs (count + 1) matched'
      else
        if count = inst.length then .ok (true, matched)
        else if rs.length + 1 < inst.length - count then .ok (false, matched)
        else propPhase1 inst rs count matched

/-- Loop of ProportionAttack.__match_proportions (attacks.py lines 504-512)
over `i = 1 .. len(matched)-1`; the integer divisions raise
ZeroDivisionError when a most-frequent entry has frequency 0. -/
def propLoop2 (tol : ℚ) (inst : List FreqVisit) (m0 i0 : FreqVisit) :
    List FreqVisit → ℕ → Except Err Bool
  | [], _ => .ok true
  | m :: ms, i =>
    match inst[i]? with
    | none => .error .indexError
    | some e =>
      if m0.freq = 0 then .error .divByZero
      else if i0.freq = 0 then .error .divByZero
      else
        let pm : ℚ := (m.freq : ℚ) / (m0.freq : ℚ)
        let pin : ℚ := (e.freq : ℚ) / (i0.freq : ℚ)
        if 0 ≤ pm - pin - tol ∧ pm - pin + tol ≤ 0 then propLoop2 tol inst m0 i0 ms (i + 1)
        else .ok false

/-- ProportionAttack.__match_proportions (attacks.py lines 482-513);
`instance[0]` and `matched.visits[0]` raise IndexError on empty input. -/
def matchProportions (tol : ℚ) (matched inst : List FreqVisit) : Except Err Bool :=
  match matched[0]?, inst[0]? with
  | some m0, some i0 => propLoop2 tol inst m0 i0 (matched.drop 1) 1
  | _, _ => .error .indexError

/-- ProportionAttack.has_matching (attacks.py lines 515-551). -/
def propHasMatching (tol : ℚ) (rec : IndividualRecord FreqVisit)
    (inst : List FreqVisit) : Except Err Bool := do
  let (ok1, matched) ← propPhase1 inst rec.visits 0 []
  if ok1 then matchProportions tol matched inst else .ok false

/-! ### The risk path: instances cast to Trajectory dtype

Attack.risk converts every enumerated instance into a numpy array with
`dtype=Trajectory.data_type` (attacks.py line 97), so within risk the
matchers receive elements exposing the fields x, y, time only.  Field
access on such an element is by name; asking for freq or prob raises
KeyError. -/

/-- The field names the matchers access on structured-array elements. -/
inductive NpField where
  | fx | fy | ftime | ffreq | fprob
  deriving DecidableEq, Repr

/-- An element of a numpy array with Trajectory's field layout
`[(x, float), (y, float), (time, int)]`; the third slot holds whatever
value the positional cast produced. -/
structure NpElem where
  x : ℚ
  y : ℚ
  time : ℤ
  deriving DecidableEq, Repr

/-- Field lookup on a Trajectory-layout element: x, y and time exist,
freq and prob do not. -/
def NpElem.getField : NpElem → NpField → Option ℚ
  | e, .fx => some e.x
  | e, .fy => some e.y
  | e, .ftime => some (e.time : ℚ)
  | _, .ffreq => none
  | _, .fprob => none

/-- Field lookup lifted to the error monad: a missing field is a KeyError. -/
def getF (e : NpElem) (f : NpField) : Except Err ℚ :=
  (e.getField f).elim (.error .fieldLookup) .ok

/-- Positional cast of a FrequencyVector visit `(x, y, freq)` into the
Trajectory layout `(x, y, time)` performed by `array(..., dtype=Trajectory.data_type)`. -/
def freqToNp (v : FreqVisit) : NpElem := ⟨v.x, v.y, v.freq⟩

/-- Positional cast of a ProbabilityVector visit; the float prob is
truncated into the int time slot. -/
def probToNp (v : ProbVisit) : NpElem := ⟨v.x, v.y, ⌊v.prob⌋⟩

/-- FrequencyAttack.has_matching as invoked from Attack.risk, where the
instance elements carry the Trajectory layout: the loop reads
`instance_elem[x]`, `instance_elem[y]` and then `instance_elem[freq]`
(attacks.py lines 360-362), the last of which is a missing field. -/
def freqLoopNp (tol : ℚ) (inst : List NpElem) : List FreqVisit → ℕ → Except Err Bool
  | [], _ => .ok true
  | r :: rs, count =>
    match inst[count]? with
    | none => .error .indexError
    | some e => do
      let ex ← getF e .fx
      let ey ← getF e .fy
      let ef ← getF e .ffreq
      let fdiff : ℚ := (r.freq : ℚ) - ef * tol
      if ex = r.x ∧ ey = r.y ∧ 0 ≤ fdiff then
        if count + 1 = inst.length then .ok true
        else if rs.length + 1 < inst.length - (count + 1) then .ok false
        else freqLoopNp tol inst rs (count + 1)
      else if fdiff < 0 then .ok false
      else if count = inst.length then .ok true
      else if rs.length + 1 < inst.length - count then .ok false
      else freqLoopNp tol inst rs count

/-- ProbabilityAttack.has_matching on Trajectory-layout instances:
reads x, y and then the missing prob field (attacks.py lines 431-434). -/
def probLoopNp (tol : ℚ) (inst : List NpElem) : List ProbVisit → ℕ → Except Err Bool
  | [], _ => .ok true
  | r :: rs, count =>
    match inst[count]? with
    | none => .error .indexError
    | some e => do
      let ex ← getF e .fx
      let ey ← getF e .fy
      let ep ← getF e .fprob
      let pmin : ℚ := r.prob - ep - tol
      let pmax : ℚ := r.prob - ep + tol
      if ex = r.x ∧ ey = r.y ∧ 0 ≤ pmin ∧ pmax ≤ 0 then
        if count + 1 = inst.length then .ok true
        else if rs.length + 1 < inst.length - (count + 1) then .ok false
        else probLoopNp tol inst rs (count + 1)
      else if pmin < 0 then .ok false
      else if count = inst.length then .ok true
      else if rs.length + 1 < inst.length - count then .ok false
      else probLoopNp tol inst rs count

/-- Phase 1 of ProportionAttack.has_matching on Trajectory-layout
instances: it reads only the x and y fields, which exist. -/
def propPhase1Np (inst : List NpElem) :
    List FreqVisit → ℕ → List FreqVisit → Except Err (Bool × List FreqVisit)
  | [], _, matched => .ok (true, matched)
  | r :: rs, count, matched =>
    match inst[count]? with
    | none => .error .indexError
    | some e => do
      let ex ← getF e .fx
      let ey ← getF e .fy
      if ex = r.x ∧ ey = r.y then
        let matched' := insertAt r ((matched.takeWhile (fun v => r.freq < v.freq)).length) matched
        if count + 1 = inst.length then .ok (true, matched')
        else if rs.length + 1 < inst.length - (count + 1) then .ok (false, matched')
        else propPhase1Np inst rs (count + 1) matched'
      else
        if count = inst.length then .ok (true, matched)
        else if rs.length + 1 < inst.length - count then .ok (false, matched)
        else propPhase1Np inst rs count matched

/-- Loop of __match_proportions on Trajectory-layout instances: for `i ≥ 1`
it reads `instance[i][freq]`, a missing field. -/
def propLoop2Np (tol : ℚ) (inst : List NpElem) (m0 : FreqVisit) (i0 : NpElem) :
    List FreqVisit → ℕ → Except Err Bool
  | [], _ => .ok true
  | m :: ms, i =>
    match inst[i]? with
    | none => .error .indexError
    | some e => do
      if m0.freq = 0 then .error .divByZero
      else do
        let ef ← getF e .ffreq
        let i0f ← getF i0 .ffreq
        if i0f = 0 then .error .divByZero
        else
          let pm : ℚ := (m.freq : ℚ) / (m0.freq : ℚ)
          let pin : ℚ := ef / i0f
          if 0 ≤ pm - pin - tol ∧ pm - pin + tol ≤ 0 then propLoop2Np tol inst m0 i0 ms (i + 1)
          else .ok false

/-- __match_proportions on Trajectory-layout instances. -/
def matchProportionsNp (tol : ℚ) (matched : List FreqVisit) (inst : List NpElem) :
    Except Err Bool :=
  match matched[0]?, inst[0]? with
  | some m0, some i0 => propLoop2Np tol inst m0 i0 (matched.drop 1) 1
  | _, _ => .error .indexError

/-- ProportionAttack.has_matching on Trajectory-layout instances. -/
def propHasMatchingNp (tol : ℚ) (rec : IndividualRecord FreqVisit)
    (inst : List NpElem) : Except Err Bool := do
  let (ok1, matched) ← propPhase1Np inst rec.visits 0 []
  if ok1 then matchProportionsNp tol matched inst else .ok false

/-! ### The aggregator: Attack.__reidentification_prob and Attack.risk -/

/-- The accumulation loop of Attack.__reidentification_prob (attacks.py
lines 64-70): one pass over the dataset incrementing `support` for each
matching record and `num` for each record whose id equals the target
individual's id, independently of matching. -/
def reidLoop (m : IndividualRecord V → Except Err Bool) (iid : ℤ) :
    List (IndividualRecord V) → ℚ → ℚ → Except Err (ℚ × ℚ)
  | [], support, num => .ok (support, num)
  | r :: rs, support, num => do
    let b ← m r
    reidLoop m iid rs (if b then support + 1 else support)
      (if r.id = iid then num + 1 else num)

/-- Attack.__reidentification_prob (attacks.py lines 45-72):
`num_records / support`; Python raises ZeroDivisionError when no record
matches. -/
def reidProbE (m : IndividualRecord V → Except Err Bool) (iid : ℤ)
    (dataset : List (IndividualRecord V)) : Except Err ℚ := do
  let (support, num) ← reidLoop m iid dataset 0 0
  if support = 0 then .error .divByZero else .ok (num / support)

/-- Attack.risk (attacks.py lines 74-101) specialised to FrequencyAttack:
enumerate the instances, cast each to the Trajectory layout, evaluate its
re-identification probability and keep the maximum, starting from 0. -/
def freqRiskE (k : ℕ) (tol : ℚ) (dataset : List (IndividualRecord FreqVisit))
    (own : IndividualRecord FreqVisit) : Except Err ℚ :=
  (instancesEnum k own.visits).foldlM
    (fun acc inst => do
      let arr := inst.map freqToNp
      let p ← reidProbE (fun r => freqLoopNp tol arr r.visits 0) own.id dataset
      pure (if acc < p then p else acc))
    (0 : ℚ)

/-- Attack.risk specialised to ProbabilityAttack. -/
def probRiskE (k : ℕ) (tol : ℚ) (dataset : List (IndividualRecord ProbVisit))
    (own : IndividualRecord ProbVisit) : Except Err ℚ :=
  (instancesEnum k own.visits).foldlM
    (fun acc inst => do
      let arr := inst.map probToNp
      let p ← reidProbE (fun r => probLoopNp tol arr r.visits 0) own.id dataset
      pure (if acc < p then p else acc))
    (0 : ℚ)

/-- Attack.risk specialised to ProportionAttack. -/
def propRiskE (k : ℕ) (tol : ℚ) (dataset : List (IndividualRecord FreqVisit))
    (own : IndividualRecord FreqVisit) : Except Err ℚ :=
  (instancesEnum k own.visits).foldlM
    (fun acc inst => do
      let arr := inst.map freqToNp
      let p ← reidProbE (fun r => propHasMatchingNp tol r arr) own.id dataset
      pure (if acc < p then p else acc))
    (0 : ℚ)

/-- The call `self.__reidentification_prob(...)` on attacks.py line 647 sits
inside class HomeWorkAttack, so Python name-mangles it to
`self._HomeWorkAttack__reidentification_prob`; the only aggregator defined
is `_Attack__reidentification_prob` (mangled from line 45), so evaluating
the call raises AttributeError before any matching happens.  This
definition records that name-resolution fact of the source. -/
def homeWorkReidCall (_dataset : List (IndividualRecord FreqVisit))
    (_inst : List NpElem) (_iid : ℤ) : Except Err ℚ :=
  .error .attributeError

/-- HomeWorkAttack.risk (attacks.py lines 626-650): build the fixed
two-element instance from visits 0 and 1 (IndexError on shorter records),
cast it to the Trajectory layout, then invoke the mangled private
aggregator. -/
def homeWorkRisk (_tol : ℚ) (dataset : List (IndividualRecord FreqVisit))
    (own : IndividualRecord FreqVisit) : Except Err ℚ :=
  match own.visits[0]?, own.visits[1]? with
  | some v0, some v1 => do
    let arr := [freqToNp v0, freqToNp v1]
    let p ← homeWorkReidCall dataset arr own.id
    pure (if 0 < p then p else 0)
  | _, _ => .error .indexError

/-- Convenience view of an Except Bool result as plain truth. -/
def isOkTrue : Except Err Bool → Bool
  | .ok true => true
  | _ => false

/-- Modelled from the spec: the per-instance re-identification probability
as the claim states it, `matches_for_individual / matches_total` with the
numerator restricted to records that both carry the individual's id and
match the instance. -/
def specReidProb (m : IndividualRecord V → Except Err Bool) (iid : ℤ)
    (dataset : List (IndividualRecord V)) : ℚ :=
  ((dataset.filter (fun r => decide (r.id = iid) && isOkTrue (m r))).length : ℚ) /
    ((dataset.filter (fun r => isOkTrue (m r))).length : ℚ)

/-! ### Shared rewriting lemmas for the Except monad -/

theorem exceptBind_ok (a : α) (f : α → Except Err β) :
    (Except.ok a >>= f : Except Err β) = f a := rfl

theorem exceptBind_error (e : Err) (f : α → Except Err β) :
    ((Except.error e : Except Err α) >>= f) = .error e := rfl

theorem exceptMap_ok (f : α → β) (a : α) :
    (f <$> (Except.ok a : Except Err α)) = .ok (f a) := rfl

theorem exceptMap_error (f : α → β) (e : Err) :
    (f <$> (Except.error e : Except Err α)) = .error e := rfl

theorem exceptPure (a : α) : (pure a : Except Err α) = .ok a := rfl

/-! ### Claim theorems -/

/-- C3: evaluation of the code at the failing input.  The claim says every
variant matcher accepts an individual's own full-history instance against
their own record for every legal tolerance; ProbabilityAttack.has_matching
rejects the owner's record at tolerance 1/2 (its acceptance test
`p_diff_min >= 0 and p_diff_max <= 0` is unsatisfiable for any positive
tolerance), and ProportionAttack.__match_proportions rejects the owner's
own proportions the same way. -/
theorem C3_self_consistency_fails :
    probHasMatching (1/2) ⟨7, [⟨0, 0, 1⟩]⟩ [⟨0, 0, 1⟩] = .ok false ∧
      propHasMatching (1/2) ⟨7, [⟨0, 0, 4⟩, ⟨1, 1, 2⟩]⟩ [⟨0, 0, 4⟩, ⟨1, 1, 2⟩] = .ok false := by
  constructor
  · norm_num [probHasMatching, probLoop]
  · norm_num [propHasMatching, propPhase1, matchProportions, propLoop2, insertAt,
      exceptBind_ok, exceptBind_error]

/-- C4: evaluation of the code at the failing input.  The claim (and the
source docstring) say a record probability inside
`[instance.prob - tolerance, instance.prob + tolerance]` matches; the code
requires `record.prob - instance.prob - tolerance >= 0` and
`record.prob - instance.prob + tolerance <= 0` simultaneously, so an exact
probability match (1/2 against 1/2, tolerance 1/8) and an in-range record
probability 9/16 are both rejected, each by the immediate-failure branch. -/
theorem C4_probability_interval_fails :
    probHasMatching (1/8) ⟨3, [⟨0, 0, 1/2⟩]⟩ [⟨0, 0, 1/2⟩] = .ok false ∧
      probHasMatching (1/8) ⟨3, [⟨0, 0, 9/16⟩]⟩ [⟨0, 0, 1/2⟩] = .ok false := by
  constructor <;> norm_num [probHasMatching, probLoop]

/-- C5: evaluation of the code at the failing input.  The feasibility test
`(number_of_visits - i) < (target - count)` counts the visit just processed
as still available, so scanning a single-visit record against a two-element
instance ends with one instance element unmatched and the initial
`has_match = True` is returned. -/
theorem C5_unmatched_element_accepted :
    locSeqHasMatching ⟨4, [⟨0, 0, 7⟩]⟩ [⟨0, 0, 7⟩, ⟨5, 5, 8⟩] = .ok true := by
  norm_num [locSeqHasMatching, locSeqLoop]

/-- C6: evaluation of the code at the failing input.  HomeWorkAttack.risk
never returns the re-identification probability: on a record with two
visits it builds the fixed instance and then raises AttributeError, because
`self.__reidentification_prob` name-mangles to the nonexistent
`_HomeWorkAttack__reidentification_prob`; on a record with fewer than two
visits it raises a bare IndexError at `individual_record.visits[1]`, not
the degenerate-aggregation error the claim requires. -/
theorem C6_homework_risk_raises :
    homeWorkRisk (1/2) [⟨0, [⟨0, 0, 5⟩, ⟨1, 1, 3⟩]⟩] ⟨0, [⟨0, 0, 5⟩, ⟨1, 1, 3⟩]⟩ =
        .error .attributeError ∧
      homeWorkRisk (1/2) [⟨0, [⟨0, 0, 5⟩]⟩] ⟨0, [⟨0, 0, 5⟩]⟩ = .error .indexError := by
  constructor <;> rfl

/-- C1 counterexample: with LocationAttack, the dataset consisting of
record A (id 0, visiting (0,0)) and record B (id 1, visiting (1,1)), and
the instance [(1,1)], only B matches, so the claimed numerator (records
with id 0 that also match) is 0 and the claimed probability is 0; the code
returns 1 because its numerator counts every record with id 0 whether or
not it matches. -/
theorem C1_counterexample :
    reidProbE (fun r => .ok (locHasMatching r [⟨1, 1, 2⟩])) 0
        [⟨0, [⟨0, 0, 1⟩]⟩, ⟨1, [⟨1, 1, 2⟩]⟩] = .ok 1 ∧
      specReidProb (fun r => .ok (locHasMatching r [⟨1, 1, 2⟩])) 0
        [⟨0, [⟨0, 0, 1⟩]⟩, ⟨1, [⟨1, 1, 2⟩]⟩] = 0 ∧
      (1 : ℚ) ≠ 0 := by
  refine ⟨?_, ?_, by norm_num⟩
  · norm_num [reidProbE, reidLoop, locHasMatching, locLoop, locInner,
      exceptBind_ok, exceptBind_error]
  · norm_num [specReidProb, isOkTrue, locHasMatching, locLoop, locInner, List.filter]

/-- C2 counterexample: ProportionAttack with k = 1 on a dataset holding the
individual's own single-visit record returns the numeric risk 1 instead of
failing: its location phase reads only the x and y fields of the
Trajectory-layout instance, and the proportion phase is vacuous for a
one-element instance, so the missing freq field is never read. -/
theorem C2_counterexample :
    propRiskE 1 0 [⟨0, [⟨0, 0, 2⟩]⟩] ⟨0, [⟨0, 0, 2⟩]⟩ = .ok 1 := by
  norm_num [propRiskE, instancesEnum, combinations, propHasMatchingNp, propPhase1Np,
    matchProportionsNp, propLoop2Np, reidProbE, reidLoop, freqToNp, getF, NpElem.getField,
    insertAt, List.foldlM, exceptBind_ok, exceptBind_error, exceptMap_ok, exceptPure]

/-- C7 counterexample: FrequencyAttack matching is not preserved when the
tolerance increases toward 1: the record with frequency 9 matches the
instance element of frequency 10 at tolerance 3/4 (9 ≥ 10·3/4) but not at
tolerance 1 (9 < 10), although 3/4 ≤ 1. -/
theorem C7_counterexample :
    freqHasMatching (3/4) ⟨1, [⟨5, 5, 9⟩]⟩ [⟨5, 5, 10⟩] = .ok true ∧
      freqHasMatching 1 ⟨1, [⟨5, 5, 9⟩]⟩ [⟨5, 5, 10⟩] = .ok false ∧
      (3/4 : ℚ) ≤ 1 := by
  refine ⟨?_, ?_, by norm_num⟩ <;> norm_num [freqHasMatching, freqLoop]

/-- C8 counterexample: inserting a second visit with the same sort key as
an existing one places the new visit before the old one, for Trajectory
(searchsorted side left) as well as FrequencyVector (size minus reversed
searchsorted side right), contradicting the claimed append-on-tie. -/
theorem C8_counterexample :
    trajAddVisit (trajAddVisit ⟨0, []⟩ 1 1 5) 2 2 5 = ⟨0, [⟨2, 2, 5⟩, ⟨1, 1, 5⟩]⟩ ∧
      trajAddVisit (trajAddVisit ⟨0, []⟩ 1 1 5) 2 2 5 ≠ ⟨0, [⟨1, 1, 5⟩, ⟨2, 2, 5⟩]⟩ ∧
      freqAddVisit (freqAddVisit ⟨0, []⟩ 1 1 5) 2 2 5 = ⟨0, [⟨2, 2, 5⟩, ⟨1, 1, 5⟩]⟩ := by
  refine ⟨rfl, ?_, rfl⟩
  decide

/-- C9 counterexample: with precision Day, a record visit whose truncated
timestamp 20200101 is strictly earlier than the instance element's
20200102 does not abort the match: it is skipped and the match succeeds on
the next visit.  Per the claim the whole match should have failed
immediately at that visit. -/
theorem C9_counterexample :
    visitHasMatching .day ⟨0, [⟨5, 5, 20200101⟩, ⟨0, 0, 20200102⟩]⟩ [⟨0, 0, 20200102⟩] =
        .ok true ∧
      extractPrecision .day 20200101 < extractPrecision .day 20200102 := by
  constructor
  · norm_num [visitHasMatching, visitLoop]
    decide
  · decide

/-- C10 counterexample: duplicate visits are legal in a record, and on the
two-element record [v, v] with k = 1 the enumeration yields the same
one-element combination twice, so it does not produce C(2,1) = 2 distinct
combinations with no combination repeated. -/
theorem C10_counterexample :
    instancesEnum 1 [(⟨0, 0, 1⟩ : TrajVisit), ⟨0, 0, 1⟩] =
        [[⟨0, 0, 1⟩], [⟨0, 0, 1⟩]] ∧
      ¬ ([[(⟨0, 0, 1⟩ : TrajVisit)], [⟨0, 0, 1⟩]] : List (List TrajVisit)).Nodup := by
  constructor
  · rfl
  · decide

/-! ### Properties of the combination enumerator -/

theorem comb_cons (r : ℕ) (x : α) (xs : List α) :
    combinations (r + 1) (x :: xs) =
      (combinations r xs).map (x :: ·) ++ combinations (r + 1) xs := rfl

theorem comb_length (r : ℕ) (l : List α) :
    (combinations r l).length = l.length.choose r := by
  induction l generalizing r with
  | nil => cases r <;> simp [combinations]
  | cons x xs ih =>
    cases r with
    | zero => simp [combinations]
    | succ r => simp [comb_cons, ih, Nat.choose_succ_succ, Nat.add_comm]

theorem comb_eq_nil {r : ℕ} {l : List α} (h : l.length < r) : combinations r l = [] := by
  induction l generalizing r with
  | nil =>
    cases r with
    | zero => omega
    | succ r => rfl
  | cons x xs ih =>
    cases r with
    | zero => omega
    | succ r =>
      have h1 : xs.length < r := by simpa using h
      simp [comb_cons, ih h1, ih (Nat.lt_succ_of_lt h1)]

theorem comb_self (l : List α) : combinations l.length l = [l] := by
  induction l with
  | nil => rfl
  | cons x xs ih =>
    simp [comb_cons, ih, comb_eq_nil (Nat.lt_succ_self xs.length)]

theorem comb_mem {r : ℕ} {l c : List α} (h : c ∈ combinations r l) :
    c.Sublist l ∧ c.length = r := by
  induction l generalizing r c with
  | nil =>
    cases r with
    | zero =>
      simp only [combinations, List.mem_singleton] at h
      subst h; simp
    | succ r => simp [combinations] at h
  | cons x xs ih =>
    cases r with
    | zero =>
      simp only [combinations, List.mem_singleton] at h
      subst h; simp
    | succ r =>
      rw [comb_cons] at h
      rcases List.mem_append.mp h with h | h
      · rcases List.mem_map.mp h with ⟨c1, hc1, rfl⟩
        obtain ⟨hs, hl⟩ := ih hc1
        exact ⟨hs.cons₂ x, by simp [hl]⟩
      · obtain ⟨hs, hl⟩ := ih h
        exact ⟨hs.cons x, hl⟩

theorem comb_complete {l c : List α} (h : c.Sublist l) : c ∈ combinations c.length l := by
  induction h with
  | slnil => simp [combinations]
  | cons a h ih =>
    rename_i c1 l1
    cases hc : c1.length with
    | zero =>
      rw [List.length_eq_zero] at hc
      subst hc
      simp [combinations]
    | succ n =>
      rw [hc] at ih
      rw [comb_cons]
      exact List.mem_append.mpr (Or.inr ih)
  | cons₂ a h ih =>
    rw [List.length_cons, comb_cons]
    exact List.mem_append.mpr (Or.inl (List.mem_map.mpr ⟨_, ih, rfl⟩))

theorem comb_nodup {l : List α} (hl : l.Nodup) (r : ℕ) : (combinations r l).Nodup := by
  induction l generalizing r with
  | nil => cases r <;> simp [combinations]
  | cons x xs ih =>
    cases r with
    | zero => simp [combinations]
    | succ r =>
      rw [comb_cons]
      have hx : x ∉ xs := (List.nodup_cons.mp hl).1
      have hxs : xs.Nodup := (List.nodup_cons.mp hl).2
      refine List.Nodup.append ?_ (ih hxs (r + 1)) ?_
      · exact (ih hxs r).map (fun a b hab => by injection hab)
      · intro c hc1 hc2
        rcases List.mem_map.mp hc1 with ⟨c1, _, rfl⟩
        exact hx ((comb_mem hc2).1.subset (List.mem_cons_self x c1))

theorem instancesEnum_eq (k : ℕ) (l : List α) :
    instancesEnum k l = combinations (min k l.length) l := by
  unfold instancesEnum
  split_ifs with h
  · rw [Nat.min_eq_right h.le]
  · rw [Nat.min_eq_left (Nat.le_of_not_lt h)]

/-- C10 (amended): the enumeration of Attack.risk produces exactly
C(n, min(k,n)) size-min(k,n) combinations of the record's visits, each an
order-preserving selection from the record; when the record's visits are
pairwise distinct no combination is repeated and every size-min(k,n)
selection occurs; and for every k ≥ n it yields exactly one instance,
the full visit sequence.  (The original claim's distinctness clause fails
for records with duplicate visits, which are legal.) -/
theorem C10_instances_enumeration (k : ℕ) (l : List TrajVisit) :
    (instancesEnum k l).length = l.length.choose (min k l.length) ∧
      (∀ c ∈ instancesEnum k l, c.Sublist l ∧ c.length = min k l.length) ∧
      (l.Nodup → (instancesEnum k l).Nodup) ∧
      (∀ c : List TrajVisit, c.Sublist l → c.length = min k l.length →
        c ∈ instancesEnum k l) ∧
      (l.length ≤ k → instancesEnum k l = [l]) := by
  rw [instancesEnum_eq]
  refine ⟨comb_length _ _, fun c hc => comb_mem hc, fun h => comb_nodup h _, ?_, ?_⟩
  · intro c hs hlen
    have := comb_complete hs
    rwa [hlen] at this
  · intro hk
    rw [Nat.min_eq_right hk]
    exact comb_self l

/-- C10 witness: the amended theorem applied to a concrete three-visit
record at k = 2 (no-repetition part) and k = 5 (degenerate full-sequence
part). -/
theorem C10_instances_enumeration_witness :
    (instancesEnum 2 [(⟨0, 0, 1⟩ : TrajVisit), ⟨1, 1, 2⟩, ⟨2, 2, 3⟩]).Nodup ∧
      instancesEnum 5 [(⟨0, 0, 1⟩ : TrajVisit), ⟨1, 1, 2⟩, ⟨2, 2, 3⟩] =
        [[⟨0, 0, 1⟩, ⟨1, 1, 2⟩, ⟨2, 2, 3⟩]] := by
  constructor
  · exact (C10_instances_enumeration 2 [⟨0, 0, 1⟩, ⟨1, 1, 2⟩, ⟨2, 2, 3⟩]).2.2.1 (by decide)
  · exact (C10_instances_enumeration 5 [⟨0, 0, 1⟩, ⟨1, 1, 2⟩, ⟨2, 2, 3⟩]).2.2.2.2 (by norm_num)

/-! ### Properties of add_visit insertion -/

theorem insertAt_takeWhile (p : α → Bool) (a : α) (l : List α) :
    insertAt a (l.takeWhile p).length l = l.takeWhile p ++ a :: l.dropWhile p := by
  induction l with
  | nil => rfl
  | cons x xs ih =>
    by_cases hp : p x
    · simp [List.takeWhile_cons, List.dropWhile_cons, hp, insertAt, ih]
    · simp [List.takeWhile_cons, List.dropWhile_cons, hp, insertAt]

theorem mem_takeWhile_sat (p : α → Bool) : ∀ l : List α, ∀ u ∈ l.takeWhile p, p u = true := by
  intro l
  induction l with
  | nil => simp
  | cons x xs ih =>
    by_cases hp : p x
    · rw [List.takeWhile_cons_of_pos hp]
      intro u hu
      rcases List.mem_cons.mp hu with rfl | hu
      · exact hp
      · exact ih u hu
    · rw [List.takeWhile_cons_of_neg hp]
      simp

theorem dropWhile_above (le : α → α → Prop) (p : α → Bool) (a : α)
    (htrans : ∀ u v w, le u v → le v w → le u w)
    (h2 : ∀ u, p u = false → le a u) :
    ∀ l : List α, l.Pairwise le → ∀ v ∈ l.dropWhile p, le a v := by
  intro l
  induction l with
  | nil => simp
  | cons x xs ih =>
    intro hp v hv
    by_cases hpx : p x
    · rw [List.dropWhile_cons_of_pos hpx] at hv
      exact ih (List.pairwise_cons.mp hp).2 v hv
    · rw [List.dropWhile_cons_of_neg hpx] at hv
      rcases List.mem_cons.mp hv with rfl | hv
      · exact h2 v (Bool.eq_false_iff.mpr hpx)
      · exact htrans a x v (h2 x (Bool.eq_false_iff.mpr hpx))
          ((List.pairwise_cons.mp hp).1 v hv)

/-- Inserting at the length of the matching takeWhile prefix preserves
pairwise sortedness and lands the new element after exactly the elements
satisfying the predicate, before everything else. -/
theorem insert_sorted_spec (le : α → α → Prop) (p : α → Bool) (a : α) (l : List α)
    (hs : l.Pairwise le)
    (htrans : ∀ u v w, le u v → le v w → le u w)
    (h1 : ∀ u, p u = true → le u a) (h2 : ∀ u, p u = false → le a u) :
    (insertAt a (l.takeWhile p).length l).Pairwise le ∧
      ∃ pre post, insertAt a (l.takeWhile p).length l = pre ++ a :: post ∧
        (∀ u ∈ pre, p u = true) ∧ (∀ v ∈ post, le a v) := by
  rw [insertAt_takeWhile]
  have hs2 : (l.takeWhile p ++ l.dropWhile p).Pairwise le := by
    rwa [List.takeWhile_append_dropWhile]
  rw [List.pairwise_append] at hs2
  obtain ⟨hptw, hpdw, hcross⟩ := hs2
  have hdw : ∀ v ∈ l.dropWhile p, le a v := dropWhile_above le p a htrans h2 l hs
  constructor
  · rw [List.pairwise_append]
    refine ⟨hptw, ?_, ?_⟩
    · rw [List.pairwise_cons]
      exact ⟨hdw, hpdw⟩
    · intro u hu v hv
      rcases List.mem_cons.mp hv with rfl | hv
      · exact h1 u (mem_takeWhile_sat p l u hu)
      · exact hcross u hu v hv
  · exact ⟨_, _, rfl, mem_takeWhile_sat p l, hdw⟩

/-- C8 (amended): every add_visit insertion preserves the kind's ordering
invariant (ascending by time for Trajectory, descending by freq or prob for
the vectors); on ties the new visit is placed before the existing visits
with an equal sort key, after exactly the visits whose key is strictly
smaller (ascending) or strictly greater (descending).  (The original
claim's append-on-tie direction is the opposite of what searchsorted with
side left, and size minus reversed searchsorted side right, produce.) -/
theorem C8_add_visit_order :
    (∀ (rec : IndividualRecord TrajVisit) (x y : ℚ) (t : ℕ),
        rec.visits.Pairwise (fun u v => u.time ≤ v.time) →
        (trajAddVisit rec x y t).visits.Pairwise (fun u v => u.time ≤ v.time) ∧
          ∃ pre post, (trajAddVisit rec x y t).visits = pre ++ ⟨x, y, t⟩ :: post ∧
            (∀ u ∈ pre, u.time < t) ∧ (∀ v ∈ post, t ≤ v.time)) ∧
      (∀ (rec : IndividualRecord FreqVisit) (x y : ℚ) (f : ℤ),
        rec.visits.Pairwise (fun u v => v.freq ≤ u.freq) →
        (freqAddVisit rec x y f).visits.Pairwise (fun u v => v.freq ≤ u.freq) ∧
          ∃ pre post, (freqAddVisit rec x y f).visits = pre ++ ⟨x, y, f⟩ :: post ∧
            (∀ u ∈ pre, f < u.freq) ∧ (∀ v ∈ post, v.freq ≤ f)) ∧
      (∀ (rec : IndividualRecord ProbVisit) (x y : ℚ) (q : ℚ),
        rec.visits.Pairwise (fun u v => v.prob ≤ u.prob) →
        (probAddVisit rec x y q).visits.Pairwise (fun u v => v.prob ≤ u.prob) ∧
          ∃ pre post, (probAddVisit rec x y q).visits = pre ++ ⟨x, y, q⟩ :: post ∧
            (∀ u ∈ pre, q < u.prob) ∧ (∀ v ∈ post, v.prob ≤ q)) := by
  refine ⟨fun rec x y t hs => ?_, fun rec x y f hs => ?_, fun rec x y q hs => ?_⟩
  · have h := insert_sorted_spec (fun u v : TrajVisit => u.time ≤ v.time)
      (fun v => decide (v.time < t)) ⟨x, y, t⟩ rec.visits hs
      (fun _ _ _ huv hvw => le_trans huv hvw)
      (fun u hu => le_of_lt (of_decide_eq_true hu))
      (fun u hu => le_of_not_lt (of_decide_eq_false hu))
    obtain ⟨h1, pre, post, heq, hpre, hpost⟩ := h
    exact ⟨h1, pre, post, heq, fun u hu => of_decide_eq_true (hpre u hu), hpost⟩
  · have h := insert_sorted_spec (fun u v : FreqVisit => v.freq ≤ u.freq)
      (fun v => decide (f < v.freq)) ⟨x, y, f⟩ rec.visits hs
      (fun _ _ _ huv hvw => le_trans hvw huv)
      (fun u hu => le_of_lt (of_decide_eq_true hu))
      (fun u hu => le_of_not_lt (of_decide_eq_false hu))
    obtain ⟨h1, pre, post, heq, hpre, hpost⟩ := h
    exact ⟨h1, pre, post, heq, fun u hu => of_decide_eq_true (hpre u hu), hpost⟩
  · have h := insert_sorted_spec (fun u v : ProbVisit => v.prob ≤ u.prob)
      (fun v => decide (q < v.prob)) ⟨x, y, q⟩ rec.visits hs
      (fun _ _ _ huv hvw => le_trans hvw huv)
      (fun u hu => le_of_lt (of_decide_eq_true hu))
      (fun u hu => le_of_not_lt (of_decide_eq_false hu))
    obtain ⟨h1, pre, post, heq, hpre, hpost⟩ := h
    exact ⟨h1, pre, post, heq, fun u hu => of_decide_eq_true (hpre u hu), hpost⟩

/-- C8 witness: the amended theorem applied to a concrete sorted
trajectory; the tie insertion at time 5 keeps the sequence sorted. -/
theorem C8_add_visit_order_witness :
    (trajAddVisit ⟨0, [⟨1, 1, 3⟩, ⟨2, 2, 5⟩]⟩ 9 9 5).visits.Pairwise
      (fun u v => u.time ≤ v.time) :=
  (C8_add_visit_order.1 ⟨0, [⟨1, 1, 3⟩, ⟨2, 2, 5⟩]⟩ 9 9 5 (by decide)).1

/-- C9 (amended): for the Visit matcher at every precision level (with the
digit-prefix lengths 4/6/8/10/12/14 of Precision.prefixLen), a scan step
consumes the current instance element exactly when (x,y) are equal and the
truncated timestamps are equal; the whole match fails immediately when the
record visit's truncated timestamp is strictly later than the current
instance element's (the claimed timestamp can no longer be reached in an
ascending trajectory); and a non-matching record visit whose truncated
timestamp is at most the instance element's is skipped without failure.
(The original claim states the immediate-failure direction backwards.) -/
theorem C9_visit_step (p : Precision) (inst : List TrajVisit) (r : TrajVisit)
    (rs : List TrajVisit) (count : ℕ) (e : TrajVisit)
    (hget : inst[count]? = some e) :
    (extractPrecision p e.time < extractPrecision p r.time →
        visitLoop p inst (r :: rs) count = .ok false) ∧
      (¬(e.x = r.x ∧ e.y = r.y ∧ extractPrecision p e.time = extractPrecision p r.time) →
        extractPrecision p r.time ≤ extractPrecision p e.time →
        ¬(count = inst.length) → ¬(rs.length + 1 < inst.length - count) →
        visitLoop p inst (r :: rs) count = visitLoop p inst rs count) ∧
      ((e.x = r.x ∧ e.y = r.y ∧ extractPrecision p e.time = extractPrecision p r.time) →
        visitLoop p inst (r :: rs) count =
          (if count + 1 = inst.length then .ok true
           else if rs.length + 1 < inst.length - (count + 1) then .ok false
           else visitLoop p inst rs (count + 1))) := by
  refine ⟨?_, ?_, ?_⟩
  · intro hlt
    simp only [visitLoop, hget]
    rw [if_neg (fun h => absurd h.2.2 (Nat.ne_of_lt hlt)), if_pos hlt]
  · intro hne hge hc hf
    simp only [visitLoop, hget]
    rw [if_neg hne, if_neg (Nat.not_lt.mpr hge), if_neg hc, if_neg hf]
  · intro hm
    simp only [visitLoop, hget]
    rw [if_pos hm]

/-- C9 witness: the amended theorem applied at precision Day to a record
visit truncating to 20200102, strictly later than the instance element's
20200101, which fails the match immediately. -/
theorem C9_visit_step_witness :
    visitLoop Precision.day [⟨0, 0, 20200101⟩] [⟨0, 0, 20200102⟩] 0 = .ok false :=
  (C9_visit_step Precision.day [⟨0, 0, 20200101⟩] ⟨0, 0, 20200102⟩ [] 0
    ⟨0, 0, 20200101⟩ rfl).1 (by decide)

/-- The accumulation loop of __reidentification_prob counts, on top of its
accumulators, the records accepted by the matcher and the records carrying
the target id, the latter regardless of matching. -/
theorem reidLoop_spec (m : IndividualRecord V → Except Err Bool) (iid : ℤ) :
    ∀ (l : List (IndividualRecord V)) (s n : ℚ),
      (∀ r ∈ l, ∃ b, m r = .ok b) →
      reidLoop m iid l s n =
        .ok (s + ((l.filter (fun r => isOkTrue (m r))).length : ℚ),
          n + ((l.filter (fun r => decide (r.id = iid))).length : ℚ)) := by
  intro l
  induction l with
  | nil => intro s n _; simp [reidLoop]
  | cons r l ih =>
    intro s n hok
    obtain ⟨b, hb⟩ := hok r (List.mem_cons_self r l)
    have hrest : ∀ u ∈ l, ∃ c, m u = .ok c := fun u hu => hok u (List.mem_cons_of_mem r hu)
    simp only [reidLoop, hb, exceptBind_ok]
    rw [ih _ _ hrest]
    have hfilter1 : ((r :: l).filter (fun u => isOkTrue (m u))).length =
        (l.filter (fun u => isOkTrue (m u))).length + (if b then 1 else 0) := by
      rw [List.filter_cons]
      cases b <;> simp [hb, isOkTrue]
    have hfilter2 : ((r :: l).filter (fun u => decide (u.id = iid))).length =
        (l.filter (fun u => decide (u.id = iid))).length + (if r.id = iid then 1 else 0) := by
      rw [List.filter_cons]
      by_cases hid : r.id = iid <;> simp [hid]
    rw [hfilter1, hfilter2]
    cases b <;> by_cases hid : r.id = iid <;>
      simp [hid] <;> push_cast <;> ring_nf <;> exact ⟨trivial, trivial⟩

/-- C1 (amended): whenever every matcher call succeeds, the aggregator
returns num_records / support where support counts the dataset records the
instance matches and num_records counts every dataset record carrying the
individual's id, whether or not it matches; when no record matches it
raises the division-by-zero error.  (The original claim restricted the
numerator to records that also match, which the loop does not do.) -/
theorem C1_reidentification_formula (m : IndividualRecord V → Except Err Bool)
    (iid : ℤ) (dataset : List (IndividualRecord V))
    (hok : ∀ r ∈ dataset, ∃ b, m r = .ok b) :
    reidProbE m iid dataset =
      if (dataset.filter (fun r => isOkTrue (m r))).length = 0 then .error .divByZero
      else .ok (((dataset.filter (fun r => decide (r.id = iid))).length : ℚ) /
        ((dataset.filter (fun r => isOkTrue (m r))).length : ℚ)) := by
  simp only [reidProbE, reidLoop_spec m iid dataset 0 0 hok, exceptBind_ok, zero_add]
  by_cases h : (dataset.filter (fun r => isOkTrue (m r))).length = 0
  · rw [if_pos (by exact_mod_cast h), if_pos h]
  · rw [if_neg (by exact_mod_cast h), if_neg h]

/-- C1 witness: the amended theorem applied to a one-record dataset whose
matcher accepts everything, giving probability 1/1. -/
theorem C1_reidentification_formula_witness :
    reidProbE (fun _ : IndividualRecord TrajVisit => Except.ok true) 0 [⟨0, []⟩] = .ok 1 := by
  rw [C1_reidentification_formula (fun _ : IndividualRecord TrajVisit => Except.ok true) 0
    [⟨0, []⟩] (fun _ _ => ⟨true, rfl⟩)]
  norm_num [isOkTrue, List.filter]

/-! ### Tolerance antitonicity of the Frequency, Probability and
Proportion matchers -/

theorem freqLoop_antitone (t t' : ℚ) (htt : t' ≤ t)
    (inst : List FreqVisit) (hfreq : ∀ e ∈ inst, (0 : ℤ) ≤ e.freq) :
    ∀ (rs : List FreqVisit) (count : ℕ),
      freqLoop t inst rs count = .ok true → freqLoop t' inst rs count = .ok true := by
  intro rs
  induction rs with
  | nil => intro count _; rfl
  | cons r rs ih =>
    intro count h
    cases hget : inst[count]? with
    | none => simp [freqLoop, hget] at h
    | some e =>
      have hef : (0 : ℚ) ≤ (e.freq : ℚ) := by
        exact_mod_cast hfreq e (List.getElem?_mem hget)
      have hfd : (r.freq : ℚ) - (e.freq : ℚ) * t ≤ (r.freq : ℚ) - (e.freq : ℚ) * t' := by
        have := mul_le_mul_of_nonneg_left htt hef
        linarith
      simp only [freqLoop, hget] at h ⊢
      by_cases hxy : e.x = r.x ∧ e.y = r.y
      · by_cases hf : 0 ≤ (r.freq : ℚ) - (e.freq : ℚ) * t
        · have hf' : 0 ≤ (r.freq : ℚ) - (e.freq : ℚ) * t' := le_trans hf hfd
          rw [if_pos ⟨hxy.1, hxy.2, hf⟩] at h
          rw [if_pos ⟨hxy.1, hxy.2, hf'⟩]
          by_cases hc : count + 1 = inst.length
          · rw [if_pos hc]
          · rw [if_neg hc] at h ⊢
            by_cases hfe : rs.length + 1 < inst.length - (count + 1)
            · rw [if_pos hfe] at h; exact absurd h (by simp)
            · rw [if_neg hfe] at h ⊢; exact ih _ h
        · rw [if_neg (fun hco => hf hco.2.2), if_pos (not_le.mp hf)] at h
          exact absurd h (by simp)
      · have hne : ¬(e.x = r.x ∧ e.y = r.y ∧ 0 ≤ (r.freq : ℚ) - (e.freq : ℚ) * t) :=
          fun hco => hxy ⟨hco.1, hco.2.1⟩
        have hne' : ¬(e.x = r.x ∧ e.y = r.y ∧ 0 ≤ (r.freq : ℚ) - (e.freq : ℚ) * t') :=
          fun hco => hxy ⟨hco.1, hco.2.1⟩
        rw [if_neg hne] at h
        rw [if_neg hne']
        by_cases hf : (r.freq : ℚ) - (e.freq : ℚ) * t < 0
        · rw [if_pos hf] at h; exact absurd h (by simp)
        · rw [if_neg hf] at h
          rw [if_neg (not_lt.mpr (le_trans (not_lt.mp hf) hfd))]
          by_cases hc : count = inst.length
          · rw [if_pos hc]
          · rw [if_neg hc] at h ⊢
            by_cases hfe : rs.length + 1 < inst.length - count
            · rw [if_pos hfe] at h; exact absurd h (by simp)
            · rw [if_neg hfe] at h ⊢; exact ih _ h

theorem probLoop_antitone (t t' : ℚ) (ht0 : 0 ≤ t') (htt : t' ≤ t)
    (inst : List ProbVisit) :
    ∀ (rs : List ProbVisit) (count : ℕ),
      probLoop t inst rs count = .ok true → probLoop t' inst rs count = .ok true := by
  intro rs
  induction rs with
  | nil => intro count _; rfl
  | cons r rs ih =>
    intro count h
    cases hget : inst[count]? with
    | none => simp [probLoop, hget] at h
    | some e =>
      simp only [probLoop, hget] at h ⊢
      by_cases hxy : e.x = r.x ∧ e.y = r.y
      · by_cases hs : 0 ≤ r.prob - e.prob - t ∧ r.prob - e.prob + t ≤ 0
        · have hs' : 0 ≤ r.prob - e.prob - t' ∧ r.prob - e.prob + t' ≤ 0 :=
            ⟨by linarith [hs.1], by linarith [hs.2]⟩
          rw [if_pos ⟨hxy.1, hxy.2, hs.1, hs.2⟩] at h
          rw [if_pos ⟨hxy.1, hxy.2, hs'.1, hs'.2⟩]
          by_cases hc : count + 1 = inst.length
          · rw [if_pos hc]
          · rw [if_neg hc] at h ⊢
            by_cases hfe : rs.length + 1 < inst.length - (count + 1)
            · rw [if_pos hfe] at h; exact absurd h (by simp)
            · rw [if_neg hfe] at h ⊢; exact ih _ h
        · rw [if_neg (fun hco => hs ⟨hco.2.2.1, hco.2.2.2⟩)] at h
          by_cases hmin : r.prob - e.prob - t < 0
          · rw [if_pos hmin] at h; exact absurd h (by simp)
          · rw [if_neg hmin] at h
            have hd : t ≤ r.prob - e.prob := by linarith [not_lt.mp hmin]
            have hs' : ¬(e.x = r.x ∧ e.y = r.y ∧
                0 ≤ r.prob - e.prob - t' ∧ r.prob - e.prob + t' ≤ 0) := by
              rintro ⟨_, _, hmin', hmax'⟩
              have hteq : t = 0 := by linarith
              exact hs ⟨by linarith, by linarith⟩
            rw [if_neg hs', if_neg (by intro hcon; linarith)]
            by_cases hc : count = inst.length
            · rw [if_pos hc]
            · rw [if_neg hc] at h ⊢
              by_cases hfe : rs.length + 1 < inst.length - count
              · rw [if_pos hfe] at h; exact absurd h (by simp)
              · rw [if_neg hfe] at h ⊢; exact ih _ h
      · have hne : ∀ u : ℚ, ¬(e.x = r.x ∧ e.y = r.y ∧
            0 ≤ r.prob - e.prob - u ∧ r.prob - e.prob + u ≤ 0) :=
          fun u hco => hxy ⟨hco.1, hco.2.1⟩
        rw [if_neg (hne t)] at h
        rw [if_neg (hne t')]
        by_cases hmin : r.prob - e.prob - t < 0
        · rw [if_pos hmin] at h; exact absurd h (by simp)
        · rw [if_neg hmin] at h
          rw [if_neg (by intro hcon; have := not_lt.mp hmin; linarith)]
          by_cases hc : count = inst.length
          · rw [if_pos hc]
          · rw [if_neg hc] at h ⊢
            by_cases hfe : rs.length + 1 < inst.length - count
            · rw [if_pos hfe] at h; exact absurd h (by simp)
            · rw [if_neg hfe] at h ⊢; exact ih _ h

theorem propLoop2_antitone (t t' : ℚ) (htt : t' ≤ t)
    (inst : List FreqVisit) (m0 i0 : FreqVisit) :
    ∀ (ms : List FreqVisit) (i : ℕ),
      propLoop2 t inst m0 i0 ms i = .ok true → propLoop2 t' inst m0 i0 ms i = .ok true := by
  intro ms
  induction ms with
  | nil => intro i _; rfl
  | cons m ms ih =>
    intro i h
    cases hget : inst[i]? with
    | none => simp [propLoop2, hget] at h
    | some e =>
      simp only [propLoop2, hget] at h ⊢
      by_cases h0 : m0.freq = 0
      · rw [if_pos h0] at h; exact absurd h (by simp)
      · rw [if_neg h0] at h ⊢
        by_cases h1 : i0.freq = 0
        · rw [if_pos h1] at h; exact absurd h (by simp)
        · rw [if_neg h1] at h ⊢
          by_cases hs : 0 ≤ (m.freq : ℚ) / (m0.freq : ℚ) - (e.freq : ℚ) / (i0.freq : ℚ) - t ∧
              (m.freq : ℚ) / (m0.freq : ℚ) - (e.freq : ℚ) / (i0.freq : ℚ) + t ≤ 0
          · rw [if_pos hs] at h
            rw [if_pos ⟨by linarith [hs.1], by linarith [hs.2]⟩]
            exact ih _ h
          · rw [if_neg hs] at h; exact absurd h (by simp)

theorem matchProportions_antitone (t t' : ℚ) (htt : t' ≤ t)
    (matched inst : List FreqVisit)
    (h : matchProportions t matched inst = .ok true) :
    matchProportions t' matched inst = .ok true := by
  unfold matchProportions at h ⊢
  cases h0 : matched[0]? <;> cases h1 : inst[0]? <;> simp only [h0, h1] at h ⊢
  · exact h
  · exact h
  · exact h
  · exact propLoop2_antitone t t' htt inst _ _ _ _ h

/-- C7 (amended): for the Frequency, Probability and Proportion matchers
as coded, matching is monotone in the tolerance parameter toward 0, the
opposite direction of the original claim: if has_matching accepts a record
at tolerance t it also accepts it at every tolerance t' with 0 ≤ t' ≤ t
(for Frequency, under the data-model assumption that instance frequencies
are non-negative counts). -/
theorem C7_tolerance_antitone (t t' : ℚ) (ht0 : 0 ≤ t') (htt : t' ≤ t) :
    (∀ (rec : IndividualRecord FreqVisit) (inst : List FreqVisit),
        (∀ e ∈ inst, (0 : ℤ) ≤ e.freq) →
        freqHasMatching t rec inst = .ok true → freqHasMatching t' rec inst = .ok true) ∧
      (∀ (rec : IndividualRecord ProbVisit) (inst : List ProbVisit),
        probHasMatching t rec inst = .ok true → probHasMatching t' rec inst = .ok true) ∧
      (∀ (rec : IndividualRecord FreqVisit) (inst : List FreqVisit),
        propHasMatching t rec inst = .ok true → propHasMatching t' rec inst = .ok true) := by
  refine ⟨fun rec inst hfreq h => ?_, fun rec inst h => ?_, fun rec inst h => ?_⟩
  · exact freqLoop_antitone t t' htt inst hfreq rec.visits 0 h
  · exact probLoop_antitone t t' ht0 htt inst rec.visits 0 h
  · unfold propHasMatching at h ⊢
    cases hp : propPhase1 inst rec.visits 0 [] with
    | error e => rw [hp, exceptBind_error] at h; exact absurd h (by simp)
    | ok pr =>
      obtain ⟨b, matched⟩ := pr
      simp only [hp, exceptBind_ok] at h ⊢
      by_cases hb : b = true
      · rw [if_pos hb] at h ⊢
        exact matchProportions_antitone t t' htt matched inst h
      · rw [if_neg hb] at h; exact absurd h (by simp)

/-- C7 witness: the amended theorem applied at tolerances 1/2 and 0, on a
single-visit frequency record matching its own visit. -/
theorem C7_tolerance_antitone_witness :
    freqHasMatching 0 ⟨0, [⟨1, 1, 5⟩]⟩ [⟨1, 1, 5⟩] = .ok true := by
  refine (C7_tolerance_antitone (1/2) 0 le_rfl (by norm_num)).1
    ⟨0, [⟨1, 1, 5⟩]⟩ [⟨1, 1, 5⟩] (by decide) ?_
  norm_num [freqHasMatching, freqLoop]

/-! ### Field-lookup failure of the risk path for Frequency and
Probability attacks -/

theorem freqLoopNp_err (tol : ℚ) (e : NpElem) (es : List NpElem)
    (r : FreqVisit) (rs : List FreqVisit) :
    freqLoopNp tol (e :: es) (r :: rs) 0 = .error .fieldLookup := by
  simp [freqLoopNp, getF, NpElem.getField, exceptBind_ok, exceptBind_error]

theorem probLoopNp_err (tol : ℚ) (e : NpElem) (es : List NpElem)
    (r : ProbVisit) (rs : List ProbVisit) :
    probLoopNp tol (e :: es) (r :: rs) 0 = .error .fieldLookup := by
  simp [probLoopNp, getF, NpElem.getField, exceptBind_ok, exceptBind_error]

/-- When the matcher accepts every empty record trivially and raises the
field error on every non-empty one, the aggregation loop raises the field
error on any dataset containing a non-empty record. -/
theorem reidLoop_err (m : IndividualRecord V → Except Err Bool) (iid : ℤ)
    (hempty : ∀ r : IndividualRecord V, r.visits = [] → m r = .ok true)
    (hne : ∀ r : IndividualRecord V, r.visits ≠ [] → m r = .error .fieldLookup) :
    ∀ (ds : List (IndividualRecord V)) (s n : ℚ),
      (∃ r ∈ ds, r.visits ≠ []) → reidLoop m iid ds s n = .error .fieldLookup := by
  intro ds
  induction ds with
  | nil => rintro s n ⟨r, hr, _⟩; cases hr
  | cons r rs ih =>
    rintro s n ⟨u, hu, hune⟩
    by_cases hre : r.visits = []
    · simp only [reidLoop, hempty r hre, exceptBind_ok]
      apply ih
      rcases List.mem_cons.mp hu with rfl | hu
      · exact absurd hre hune
      · exact ⟨u, hu, hune⟩
    · simp only [reidLoop, hne r hre, exceptBind_error]

theorem instancesEnum_ne_nil (k : ℕ) (l : List α) : instancesEnum k l ≠ [] := by
  rw [instancesEnum_eq]
  intro hcon
  have hlen := comb_length (min k l.length) l
  rw [hcon] at hlen
  have hpos := Nat.choose_pos (Nat.min_le_right k l.length)
  simp at hlen
  omega

/-- C2 (amended): for every FrequencyAttack or ProbabilityAttack with
k ≥ 1, and every dataset containing the individual's own non-empty record,
Attack.risk does not return a numeric risk but fails with a field-lookup
error: risk types each enumerated instance with Trajectory's field layout
(x, y, time), while these matchers read the missing freq or prob field of
the instance elements.  (The original claim also covered ProportionAttack,
whose location phase reads only x and y and whose proportion phase is
vacuous on one-element instances, so with min(k, n) = 1 it returns a
numeric risk instead.) -/
theorem C2_risk_field_error (k : ℕ) (tolF tolP : ℚ)
    (dsF : List (IndividualRecord FreqVisit)) (ownF : IndividualRecord FreqVisit)
    (dsP : List (IndividualRecord ProbVisit)) (ownP : IndividualRecord ProbVisit)
    (hk : 1 ≤ k) (hmemF : ownF ∈ dsF) (hneF : ownF.visits ≠ [])
    (hmemP : ownP ∈ dsP) (hneP : ownP.visits ≠ []) :
    freqRiskE k tolF dsF ownF = .error .fieldLookup ∧
      probRiskE k tolP dsP ownP = .error .fieldLookup := by
  constructor
  · obtain ⟨inst0, rest, heq⟩ := List.exists_cons_of_ne_nil (instancesEnum_ne_nil k ownF.visits)
    have hmem0 : inst0 ∈ instancesEnum k ownF.visits := by rw [heq]; exact List.mem_cons_self _ _
    have hlen0 : inst0.length = min k ownF.visits.length := by
      rw [instancesEnum_eq] at hmem0
      exact (comb_mem hmem0).2
    have hminpos : 1 ≤ min k ownF.visits.length :=
      le_min hk (List.length_pos.mpr hneF)
    obtain ⟨e, es, hinst⟩ : ∃ e es, inst0 = e :: es := by
      cases hi : inst0 with
      | nil =>
        rw [hi] at hlen0
        simp only [List.length_nil] at hlen0
        omega
      | cons e es => exact ⟨e, es, rfl⟩
    have hreid : reidProbE (fun r => freqLoopNp tolF (inst0.map freqToNp) r.visits 0)
        ownF.id dsF = .error .fieldLookup := by
      unfold reidProbE
      rw [reidLoop_err _ _ (fun r hr => by rw [hr]; rfl)
        (fun r hr => by
          obtain ⟨v, vs, hv⟩ := List.exists_cons_of_ne_nil hr
          rw [hv, hinst, List.map_cons]
          exact freqLoopNp_err tolF _ _ _ _)
        dsF 0 0 ⟨ownF, hmemF, hneF⟩, exceptBind_error]
    unfold freqRiskE
    rw [heq]
    simp only [List.foldlM_cons, hreid, exceptBind_error]
  · obtain ⟨inst0, rest, heq⟩ := List.exists_cons_of_ne_nil (instancesEnum_ne_nil k ownP.visits)
    have hmem0 : inst0 ∈ instancesEnum k ownP.visits := by rw [heq]; exact List.mem_cons_self _ _
    have hlen0 : inst0.length = min k ownP.visits.length := by
      rw [instancesEnum_eq] at hmem0
      exact (comb_mem hmem0).2
    have hminpos : 1 ≤ min k ownP.visits.length :=
      le_min hk (List.length_pos.mpr hneP)
    obtain ⟨e, es, hinst⟩ : ∃ e es, inst0 = e :: es := by
      cases hi : inst0 with
      | nil =>
        rw [hi] at hlen0
        simp only [List.length_nil] at hlen0
        omega
      | cons e es => exact ⟨e, es, rfl⟩
    have hreid : reidProbE (fun r => probLoopNp tolP (inst0.map probToNp) r.visits 0)
        ownP.id dsP = .error .fieldLookup := by
      unfold reidProbE
      rw [reidLoop_err _ _ (fun r hr => by rw [hr]; rfl)
        (fun r hr => by
          obtain ⟨v, vs, hv⟩ := List.exists_cons_of_ne_nil hr
          rw [hv, hinst, List.map_cons]
          exact probLoopNp_err tolP _ _ _ _)
        dsP 0 0 ⟨ownP, hmemP, hneP⟩, exceptBind_error]
    unfold probRiskE
    rw [heq]
    simp only [List.foldlM_cons, hreid, exceptBind_error]

/-- C2 witness: the amended theorem applied to one-record datasets with a
single-visit individual at k = 1. -/
theorem C2_risk_field_error_witness :
    freqRiskE 1 (1/2) [⟨0, [⟨0, 0, 2⟩]⟩] ⟨0, [⟨0, 0, 2⟩]⟩ = .error .fieldLookup ∧
      probRiskE 1 (1/2) [⟨0, [⟨0, 0, 1/2⟩]⟩] ⟨0, [⟨0, 0, 1/2⟩]⟩ = .error .fieldLookup :=
  C2_risk_field_error 1 (1/2) (1/2) [⟨0, [⟨0, 0, 2⟩]⟩] ⟨0, [⟨0, 0, 2⟩]⟩
    [⟨0, [⟨0, 0, 1/2⟩]⟩] ⟨0, [⟨0, 0, 1/2⟩]⟩ le_rfl (List.mem_singleton.mpr rfl)
    (by simp) (List.mem_singleton.mpr rfl) (by simp)

end PrivacyLib
